import Mathlib

/-!
Verification of the `hex2dec` line filter (`src/lib.rs` and `src/main.rs`).

Strings are modelled as `List Char`.  The regular expression
`\b(0x)?([0-9a-fA-F]{2,})\b`, compiled by the Rust `regex` crate with its
default (Unicode-aware) word-boundary semantics, is embedded as an explicit
left-to-right scanner over character positions, reproducing the crate's
leftmost-first, non-overlapping match discipline.  The fallible
`replace_all`, the line transformer `hex2dec_line` (library and binary
variants) and the stream driver `parse_stdin` are embedded on top of it.
`Option` models Rust's `Result` (`none` = `Err`) and, for the binary's
transformer, a panic of `unwrap`.
-/

namespace Hex2Dec

/-- Character class `[0-9a-fA-F]` of the regex, by code point. -/
def isHexDigit (c : Char) : Bool :=
  decide ((0x30 ≤ c.toNat ∧ c.toNat ≤ 0x39) ∨
          (0x61 ≤ c.toNat ∧ c.toNat ≤ 0x66) ∨
          (0x41 ≤ c.toNat ∧ c.toNat ≤ 0x46))

/-- Word characters of the regex crate's default `\b` assertion, which is
Unicode-aware: `\w` = Alphabetic ∪ Mark ∪ Decimal_Number ∪
Connector_Punctuation ∪ Join_Control.  On ASCII this is exactly
`[0-9A-Za-z_]`.  The predicate is exact for every scalar value up to
U+00FF: in the Latin-1 supplement the word characters are precisely the
letters ª µ º À–Ö Ø–ö ø–ÿ (U+00AA, U+00B5, U+00BA, U+00C0–U+00D6,
U+00D8–U+00F6, U+00F8–U+00FF).  Scalars above U+00FF are conservatively
treated as word constituents; no concrete input in this development uses
them. -/
def isWordChar (c : Char) : Bool :=
  decide ((0x30 ≤ c.toNat ∧ c.toNat ≤ 0x39) ∨
          (0x41 ≤ c.toNat ∧ c.toNat ≤ 0x5A) ∨
          (0x61 ≤ c.toNat ∧ c.toNat ≤ 0x7A) ∨
          c.toNat = 0x5F ∨ c.toNat = 0xAA ∨ c.toNat = 0xB5 ∨ c.toNat = 0xBA ∨
          (0xC0 ≤ c.toNat ∧ c.toNat ≤ 0xD6) ∨
          (0xD8 ≤ c.toNat ∧ c.toNat ≤ 0xF6) ∨
          0xF8 ≤ c.toNat)

/-- A match of `REGEX = \b(0x)?([0-9a-fA-F]{2,})\b`: the outer span (capture
group 0) is `[start, stop)`, the digit span (capture group 2) is
`[dstart, stop)`; `dstart = start + 2` exactly when the optional literal
`0x` (capture group 1) participated. -/
structure HexMatch where
  start : Nat
  dstart : Nat
  stop : Nat
deriving DecidableEq

/-- Length of the maximal leading run of `[0-9a-fA-F]` characters,
modelling the greedy `{2,}` repetition. -/
def hexRunLen : List Char → Nat
  | [] => 0
  | c :: cs => if isHexDigit c then hexRunLen cs + 1 else 0

/-- The `\b` assertion before the first matched character.  Since every
match of the pattern begins with a word character (`0` or a hex digit),
the boundary holds exactly when the match is at the start of the string or
the preceding character is not a word character. -/
def startBoundary (s : List Char) (i : Nat) : Bool :=
  decide (i = 0 ∨ isWordChar (s.getD (i - 1) ' ') = false)

/-- The `\b` assertion after the last matched character.  Every match ends
with a hex digit (a word character), so the boundary holds exactly when the
match ends at the end of the string or the following character is not a
word character. -/
def endBoundary (s : List Char) (j : Nat) : Bool :=
  decide (j = s.length ∨ isWordChar (s.getD j ' ') = false)

/-- Attempt of the regex engine at start position `i` (the leading `\b`
is checked by the caller).  The optional group `(0x)?` is greedy, so the
literal-prefix branch is preferred; on its failure the engine backtracks
into the empty alternative of `(0x)?`.  Each digit run is maximal, because
backtracking it cannot restore the trailing `\b` (a shorter run ends
right before a hex digit, which is a word character). -/
def matchAt (s : List Char) (i : Nat) : Option HexMatch :=
  if s.getD i ' ' = '0' ∧ s.getD (i + 1) ' ' = 'x' then
    if 2 ≤ hexRunLen (s.drop (i + 2)) ∧
        endBoundary s (i + 2 + hexRunLen (s.drop (i + 2))) = true then
      some ⟨i, i + 2, i + 2 + hexRunLen (s.drop (i + 2))⟩
    else if 2 ≤ hexRunLen (s.drop i) ∧
        endBoundary s (i + hexRunLen (s.drop i)) = true then
      some ⟨i, i, i + hexRunLen (s.drop i)⟩
    else none
  else if 2 ≤ hexRunLen (s.drop i) ∧
      endBoundary s (i + hexRunLen (s.drop i)) = true then
    some ⟨i, i, i + hexRunLen (s.drop i)⟩
  else none

/-- Scanner underlying `Regex::captures_iter`: try successive start
positions left to right; after a match, resume at its end (matches are
non-overlapping; the pattern cannot match the empty string). -/
def findMatchesAux (s : List Char) : Nat → Nat → List HexMatch
  | 0, _ => []
  | fuel + 1, i =>
    if i < s.length then
      if startBoundary s i = true then
        match matchAt s i with
        | some m => m :: findMatchesAux s fuel m.stop
        | none => findMatchesAux s fuel (i + 1)
      else findMatchesAux s fuel (i + 1)
    else []

/-- All matches of `REGEX` in `s`, leftmost first, non-overlapping. -/
def findMatches (s : List Char) : List HexMatch :=
  findMatchesAux s (s.length + 1) 0

/-- Numeric value of one hex digit (`to_digit(16)` semantics). -/
def hexDigitVal (c : Char) : Nat :=
  if 0x30 ≤ c.toNat ∧ c.toNat ≤ 0x39 then c.toNat - 0x30
  else if 0x61 ≤ c.toNat ∧ c.toNat ≤ 0x66 then c.toNat - 0x61 + 10
  else if 0x41 ≤ c.toNat ∧ c.toNat ≤ 0x46 then c.toNat - 0x41 + 10
  else 0

/-- Accumulator loop of `u128::from_str_radix(_, 16)`. -/
def hexVal : List Char → Nat → Nat
  | [], acc => acc
  | c :: cs, acc => hexVal cs (acc * 16 + hexDigitVal c)

/-- Model of `u128::from_str_radix(ds, 16)`: fails on an empty string, on
a non-hex character, or when the value overflows the 128-bit range
(`checked_mul`/`checked_add` in the loop fail exactly when the final value
would be `≥ 2^128`, since all digits are valid). -/
def hexParse (ds : List Char) : Option Nat :=
  if ds.isEmpty then none
  else if ds.all isHexDigit then
    if hexVal ds 0 < 2 ^ 128 then some (hexVal ds 0) else none
  else none

/-- One decimal digit character. -/
def decDigitChar : Nat → Char
  | 0 => '0' | 1 => '1' | 2 => '2' | 3 => '3' | 4 => '4'
  | 5 => '5' | 6 => '6' | 7 => '7' | 8 => '8' | 9 => '9'
  | _ => '*'

/-- Fuelled digit emission for `decRender` (most significant first). -/
def decRenderAux : Nat → Nat → List Char
  | 0, _ => []
  | fuel + 1, n => if n = 0 then [] else decRenderAux fuel (n / 10) ++ [decDigitChar (n % 10)]

/-- Model of Rust's `Display` for unsigned integers: the usual base-10
digit string, no sign, no separators, `0` rendered as `"0"`.  `n` itself
is enough fuel because `n < 10 ^ n`. -/
def decRender (n : Nat) : List Char :=
  if n = 0 then ['0'] else decRenderAux n n

/-- Left padding with ASCII space up to width `w`. -/
def padLeft (w : Nat) (l : List Char) : List Char :=
  List.replicate (w - l.length) ' ' ++ l

/-- Model of `format!("{:width$}", dec, width = format_length)`: the
decimal rendering of `dec`, right-justified with spaces in a field of
width `w`; emitted unpadded when it is longer than `w`. -/
def renderField (w : Nat) (dec : Nat) : List Char :=
  padLeft w (decRender dec)

/-- The half-open slice `s[a..b]`. -/
def sliceChars (s : List Char) (a b : Nat) : List Char :=
  (s.drop a).take (b - a)

/-- The text of capture group 2 (the hex digits). -/
def digitsOf (s : List Char) (m : HexMatch) : List Char :=
  sliceChars s m.dstart m.stop

/-- The text of capture group 0 (the whole token). -/
def outerOf (s : List Char) (m : HexMatch) : List Char :=
  sliceChars s m.start m.stop

/-- The replacement closure passed by `hex2dec_line` to `replace_all`:
parse the digit capture as base-16; on success format the value
right-justified in a field as wide as the whole match; on failure either
keep the original substring (`skip_error`) or propagate the error. -/
def hex2dec_rep (line : List Char) (skip_error : Bool) (m : HexMatch) : Option (List Char) :=
  if skip_error then
    match hexParse (digitsOf line m) with
    | some d => some (renderField (m.stop - m.start) d)
    | none => some (outerOf line m)
  else
    (hexParse (digitsOf line m)).map fun d => renderField (m.stop - m.start) d

/-- Loop of the fallible `replace_all`: for each match append the verbatim
gap since the previous match and the (fallible) replacement; a failing
replacement aborts the whole traversal; finally append the tail after the
last match. -/
def replace_all_go (s : List Char) (f : HexMatch → Option (List Char)) :
    Nat → List HexMatch → Option (List Char)
  | last, [] => some (s.drop last)
  | last, m :: ms =>
    match f m with
    | none => none
    | some rep =>
      match replace_all_go s f m.stop ms with
      | none => none
      | some rest => some (sliceChars s last m.start ++ rep ++ rest)

/-- Error-capturing `replace_all` over the matches of `REGEX`. -/
def replace_all (s : List Char) (f : HexMatch → Option (List Char)) : Option (List Char) :=
  replace_all_go s f 0 (findMatches s)

/-- `hex2dec_line` of `src/lib.rs`. -/
def hex2dec_line (line : List Char) (skip_error : Bool) : Option (List Char) :=
  replace_all line (hex2dec_rep line skip_error)

/-- `hex2dec_line` of `src/main.rs`: the binary's transformer unwraps the
result of `u128::from_str_radix`, so a parse failure is a panic, modelled
as `none`. -/
def hex2dec_line_main (line : List Char) : Option (List Char) :=
  replace_all line fun m =>
    (hexParse (digitsOf line m)).map fun d => renderField (m.stop - m.start) d

/-- Reference interleaving of the transform when every match parses:
verbatim gaps alternate with right-justified decimal renderings of the
parsed captures. -/
def emitAll (s : List Char) : Nat → List HexMatch → List Char
  | last, [] => s.drop last
  | last, m :: ms =>
    sliceChars s last m.start ++ renderField (m.stop - m.start) (hexVal (digitsOf s m) 0) ++
      emitAll s m.stop ms

/-- Reference interleaving of the transform with `skip_error = true`:
matches that parse are rendered, matches that overflow are kept
verbatim. -/
def emitAllSkip (s : List Char) : Nat → List HexMatch → List Char
  | last, [] => s.drop last
  | last, m :: ms =>
    sliceChars s last m.start ++
      (match hexParse (digitsOf s m) with
       | some d => renderField (m.stop - m.start) d
       | none => outerOf s m) ++
      emitAllSkip s m.stop ms

/-- Observable actions of the stream driver: a call of the success sink
with the transformed line, or a call of the error sink. -/
inductive Event where
  | out (s : List Char)
  | errSink
deriving DecidableEq

/-- The platform newline compared against by `break_nl` (Unix build). -/
def NEWLINE : List Char := ['\n']

/-- Prepending one sink invocation to a driver outcome, counting the line
that produced it as read. -/
def pushEvent (e : Event) (r : List Event × Bool × Nat) : List Event × Bool × Nat :=
  (e :: r.1, r.2.1, r.2.2 + 1)

/-- `parse_stdin` of `src/lib.rs`.  Standard input is the list of lines
successively returned by `read_line` (each including its trailing newline
when present); the end of the list is EOF.  The result records, in order,
the sink invocations, the returned `Result` (`true` = `Ok`), and how many
lines were read before returning. -/
def parse_stdin (skip_parse_errors stop_on_error break_nl : Bool) :
    List (List Char) → List Event × Bool × Nat
  | [] => ([], true, 0)
  | l :: rest =>
    if break_nl = true ∧ l = NEWLINE then ([], true, 1)
    else
      match hex2dec_line l skip_parse_errors with
      | some s => pushEvent (Event.out s) (parse_stdin skip_parse_errors stop_on_error break_nl rest)
      | none =>
        if stop_on_error then ([Event.errSink], false, 1)
        else pushEvent Event.errSink (parse_stdin skip_parse_errors stop_on_error break_nl rest)

/-- Structural facts holding for every match the scanner can emit: both
`\b` assertions, span arithmetic, and the character classes of the spanned
text (every spanned character is a hex digit or the `x` of the prefix; the
digit capture is all hex digits). -/
def GoodMatch (s : List Char) (m : HexMatch) : Prop :=
  startBoundary s m.start = true ∧ endBoundary s m.stop = true ∧
  m.start ≤ m.dstart ∧ m.dstart + 2 ≤ m.stop ∧ m.stop ≤ s.length ∧
  (∀ k, m.start ≤ k → k < m.stop → isHexDigit (s.getD k ' ') = true ∨ s.getD k ' ' = 'x') ∧
  (∀ k, m.dstart ≤ k → k < m.stop → isHexDigit (s.getD k ' ') = true) ∧
  (digitsOf s m).all isHexDigit = true

/-- The matches produced from scan position `i` on: each is a `GoodMatch`
starting no earlier than `i`, and consecutive matches do not overlap. -/
def ChainFrom (s : List Char) : Nat → List HexMatch → Prop
  | _, [] => True
  | i, m :: ms => i ≤ m.start ∧ GoodMatch s m ∧ ChainFrom s m.stop ms

theorem getD_drop (l : List Char) (a k : Nat) :
    (l.drop a).getD k ' ' = l.getD (a + k) ' ' := by
  induction l generalizing a with
  | nil => simp
  | cons c t ih =>
    cases a with
    | zero => simp
    | succ a' =>
      rw [List.drop_succ_cons, ih a', show a' + 1 + k = (a' + k) + 1 from by omega,
        List.getD_cons_succ]

theorem hexRunLen_le (l : List Char) : hexRunLen l ≤ l.length := by
  induction l with
  | nil => simp [hexRunLen]
  | cons c t ih =>
    simp only [hexRunLen, List.length_cons]
    split <;> omega

theorem hexRunLen_forward (l : List Char) : ∀ k, k < hexRunLen l → isHexDigit (l.getD k ' ') = true := by
  induction l with
  | nil => intro k hk; simp [hexRunLen] at hk
  | cons c t ih =>
    intro k hk
    simp only [hexRunLen] at hk
    by_cases hc : isHexDigit c = true
    · rw [if_pos hc] at hk
      cases k with
      | zero => simpa using hc
      | succ k' => rw [List.getD_cons_succ]; exact ih k' (by omega)
    · rw [if_neg hc] at hk; omega

theorem hexRunLen_eq (l : List Char) : ∀ n, (∀ k, k < n → isHexDigit (l.getD k ' ') = true) →
    n ≤ l.length → (n = l.length ∨ isHexDigit (l.getD n ' ') = false) → hexRunLen l = n := by
  induction l with
  | nil =>
    intro n _ hle _
    simp at hle
    simp [hexRunLen, hle]
  | cons c t ih =>
    intro n hall hle hend
    cases n with
    | zero =>
      rcases hend with h | h
      · simp at h
      · simp only [List.getD_cons_zero] at h
        simp [hexRunLen, h]
    | succ n' =>
      have hc : isHexDigit c = true := by simpa using hall 0 (by omega)
      simp only [hexRunLen, if_pos hc]
      rw [ih n' ?_ ?_ ?_]
      · intro k hk
        have := hall (k + 1) (by omega)
        rwa [List.getD_cons_succ] at this
      · simpa using hle
      · rcases hend with h | h
        · left; simpa using h
        · right; rwa [List.getD_cons_succ] at h

theorem take_hexRunLen_all (l : List Char) : (l.take (hexRunLen l)).all isHexDigit = true := by
  induction l with
  | nil => rfl
  | cons c t ih =>
    simp only [hexRunLen]
    by_cases hc : isHexDigit c = true
    · rw [if_pos hc]
      simp [List.take_succ_cons, hc, ih]
    · rw [if_neg hc]
      rfl

theorem hex_isWord {c : Char} (h : isHexDigit c = true) : isWordChar c = true := by
  simp only [isHexDigit, decide_eq_true_eq] at h
  simp only [isWordChar, decide_eq_true_eq]
  omega

theorem hexDigitVal_le {c : Char} (_h : isHexDigit c = true) : hexDigitVal c ≤ 15 := by
  unfold hexDigitVal
  split
  · omega
  · split
    · omega
    · split <;> omega

theorem hexVal_lt (l : List Char) : ∀ acc, l.all isHexDigit = true →
    hexVal l acc < (acc + 1) * 16 ^ l.length := by
  induction l with
  | nil => intro acc _; simp [hexVal]
  | cons c t ih =>
    intro acc hall
    simp only [List.all_cons, Bool.and_eq_true] at hall
    obtain ⟨hc, ht⟩ := hall
    have h1 := ih (acc * 16 + hexDigitVal c) ht
    have h2 : hexDigitVal c ≤ 15 := hexDigitVal_le hc
    simp only [hexVal, List.length_cons]
    calc hexVal t (acc * 16 + hexDigitVal c)
        < (acc * 16 + hexDigitVal c + 1) * 16 ^ t.length := h1
      _ ≤ ((acc + 1) * 16) * 16 ^ t.length := Nat.mul_le_mul_right _ (by omega)
      _ = (acc + 1) * 16 ^ (t.length + 1) := by ring

theorem sliceChars_length {s : List Char} {a b : Nat} (hab : a ≤ b) (hb : b ≤ s.length) :
    (sliceChars s a b).length = b - a := by
  simp only [sliceChars, List.length_take, List.length_drop]
  omega

theorem run_good {s : List Char} {i d : Nat}
    (hb : startBoundary s i = true)
    (hd : d = i ∨ (d = i + 2 ∧ s.getD i ' ' = '0' ∧ s.getD (i + 1) ' ' = 'x'))
    (h2 : 2 ≤ hexRunLen (s.drop d))
    (he : endBoundary s (d + hexRunLen (s.drop d)) = true) :
    GoodMatch s ⟨i, d, d + hexRunLen (s.drop d)⟩ := by
  have hdi : i ≤ d := by rcases hd with rfl | ⟨rfl, _, _⟩ <;> omega
  have hrle : hexRunLen (s.drop d) ≤ s.length - d := by
    have := hexRunLen_le (s.drop d)
    rwa [List.length_drop] at this
  have hlen : d + hexRunLen (s.drop d) ≤ s.length := by omega
  have hdigits : ∀ k, d ≤ k → k < d + hexRunLen (s.drop d) →
      isHexDigit (s.getD k ' ') = true := by
    intro k hk1 hk2
    have := hexRunLen_forward (s.drop d) (k - d) (by omega)
    rwa [getD_drop, show d + (k - d) = k from by omega] at this
  have h4 : d + 2 ≤ d + hexRunLen (s.drop d) := by omega
  have hspan : ∀ k, i ≤ k → k < d + hexRunLen (s.drop d) →
      isHexDigit (s.getD k ' ') = true ∨ s.getD k ' ' = 'x' := by
    intro k hk1 hk2
    rcases hd with rfl | ⟨rfl, h0, hx⟩
    · exact Or.inl (hdigits k hk1 hk2)
    · by_cases hki : k = i
      · subst hki; left; rw [h0]; decide
      · by_cases hki1 : k = i + 1
        · subst hki1; right; exact hx
        · exact Or.inl (hdigits k (by omega) hk2)
  have hall : ((s.drop d).take (d + hexRunLen (s.drop d) - d)).all isHexDigit = true := by
    rw [Nat.add_sub_cancel_left]
    exact take_hexRunLen_all (s.drop d)
  exact ⟨hb, he, hdi, h4, hlen, hspan, hdigits, hall⟩

theorem matchAt_good {s : List Char} {i : Nat} {m : HexMatch}
    (hb : startBoundary s i = true) (h : matchAt s i = some m) :
    m.start = i ∧ GoodMatch s m := by
  unfold matchAt at h
  by_cases hp : s.getD i ' ' = '0' ∧ s.getD (i + 1) ' ' = 'x'
  · rw [if_pos hp] at h
    by_cases hq : 2 ≤ hexRunLen (s.drop (i + 2)) ∧
        endBoundary s (i + 2 + hexRunLen (s.drop (i + 2))) = true
    · rw [if_pos hq] at h
      injection h with h
      subst h
      exact ⟨rfl, run_good hb (Or.inr ⟨rfl, hp.1, hp.2⟩) hq.1 hq.2⟩
    · rw [if_neg hq] at h
      by_cases hr : 2 ≤ hexRunLen (s.drop i) ∧
          endBoundary s (i + hexRunLen (s.drop i)) = true
      · rw [if_pos hr] at h
        injection h with h
        subst h
        exact ⟨rfl, run_good hb (Or.inl rfl) hr.1 hr.2⟩
      · rw [if_neg hr] at h
        exact absurd h (by simp)
  · rw [if_neg hp] at h
    by_cases hr : 2 ≤ hexRunLen (s.drop i) ∧
        endBoundary s (i + hexRunLen (s.drop i)) = true
    · rw [if_pos hr] at h
      injection h with h
      subst h
      exact ⟨rfl, run_good hb (Or.inl rfl) hr.1 hr.2⟩
    · rw [if_neg hr] at h
      exact absurd h (by simp)

theorem chainFrom_of_le {s : List Char} {i j : Nat} {ms : List HexMatch}
    (hij : i ≤ j) (h : ChainFrom s j ms) : ChainFrom s i ms := by
  cases ms with
  | nil => exact trivial
  | cons m t => exact ⟨le_trans hij h.1, h.2.1, h.2.2⟩

theorem findMatchesAux_chain (s : List Char) : ∀ fuel i, ChainFrom s i (findMatchesAux s fuel i) := by
  intro fuel
  induction fuel with
  | zero => intro i; exact trivial
  | succ f ih =>
    intro i
    unfold findMatchesAux
    by_cases hi : i < s.length
    · rw [if_pos hi]
      by_cases hb : startBoundary s i = true
      · rw [if_pos hb]
        cases hm : matchAt s i with
        | none => exact chainFrom_of_le (by omega) (ih (i + 1))
        | some m =>
          obtain ⟨hstart, hgood⟩ := matchAt_good hb hm
          exact ⟨by omega, hgood, ih m.stop⟩
      · rw [if_neg hb]
        exact chainFrom_of_le (by omega) (ih (i + 1))
    · rw [if_neg hi]
      exact trivial

theorem chainFrom_mem {s : List Char} : ∀ {ms : List HexMatch} {i : Nat} {m : HexMatch},
    ChainFrom s i ms → m ∈ ms → GoodMatch s m := by
  intro ms
  induction ms with
  | nil => intro i m _ hm; cases hm
  | cons a t ih =>
    intro i m hc hm
    rcases List.mem_cons.mp hm with rfl | hm'
    · exact hc.2.1
    · exact ih hc.2.2 hm'

theorem findMatches_good {s : List Char} {m : HexMatch} (h : m ∈ findMatches s) :
    GoodMatch s m :=
  chainFrom_mem (findMatchesAux_chain s (s.length + 1) 0) h

theorem replace_all_go_isSome {s : List Char} {f : HexMatch → Option (List Char)} :
    ∀ {ms : List HexMatch} (last : Nat), (∀ m ∈ ms, (f m).isSome) →
    (replace_all_go s f last ms).isSome := by
  intro ms
  induction ms with
  | nil => intro last _; simp [replace_all_go]
  | cons m t ih =>
    intro last hall
    obtain ⟨rep, hrep⟩ := Option.isSome_iff_exists.mp (hall m (by simp))
    obtain ⟨rest, hrest⟩ :=
      Option.isSome_iff_exists.mp (ih m.stop (fun x hx => hall x (by simp [hx])))
    simp [replace_all_go, hrep, hrest]

theorem replace_all_go_none {s : List Char} {f : HexMatch → Option (List Char)} :
    ∀ {ms : List HexMatch} {last : Nat}, replace_all_go s f last ms = none →
    ∃ m ∈ ms, f m = none := by
  intro ms
  induction ms with
  | nil => intro last h; simp [replace_all_go] at h
  | cons m t ih =>
    intro last h
    cases hfm : f m with
    | none => exact ⟨m, by simp, hfm⟩
    | some rep =>
      cases hrest : replace_all_go s f m.stop t with
      | none =>
        obtain ⟨m', hm', hf'⟩ := ih hrest
        exact ⟨m', by simp [hm'], hf'⟩
      | some rest => simp [replace_all_go, hfm, hrest] at h

theorem replace_all_go_length {s : List Char} {f : HexMatch → Option (List Char)}
    (hf : ∀ m rep, GoodMatch s m → f m = some rep → m.stop - m.start ≤ rep.length) :
    ∀ {ms : List HexMatch} {last : Nat} {out : List Char},
    ChainFrom s last ms → last ≤ s.length →
    replace_all_go s f last ms = some out → s.length - last ≤ out.length := by
  intro ms
  induction ms with
  | nil =>
    intro last out _ _ h
    simp only [replace_all_go, Option.some_inj] at h
    rw [← h, List.length_drop]
  | cons m t ih =>
    intro last out hchain hlast h
    obtain ⟨hls, hgood, hrest⟩ := hchain
    obtain ⟨_, _, h3, h4, h5, _, _, _⟩ := hgood
    cases hfm : f m with
    | none => simp [replace_all_go, hfm] at h
    | some rep =>
      cases hrest' : replace_all_go s f m.stop t with
      | none => simp [replace_all_go, hfm, hrest'] at h
      | some rest =>
        have heq : out = sliceChars s last m.start ++ rep ++ rest := by
          simp only [replace_all_go, hfm, hrest', Option.some_inj] at h
          exact h.symm
        have hrep_len := hf m rep ⟨by assumption, by assumption, h3, h4, h5,
          by assumption, by assumption, by assumption⟩ hfm
        have hrest_len := ih hrest h5 hrest'
        have hslice : (sliceChars s last m.start).length = m.start - last :=
          sliceChars_length hls (by omega)
        rw [heq]
        simp only [List.length_append, hslice]
        omega

theorem hexParse_some {ds : List Char} {v : Nat} (h : hexParse ds = some v) :
    v = hexVal ds 0 := by
  unfold hexParse at h
  split at h
  · simp at h
  · split at h
    · split at h
      · injection h with h; exact h.symm
      · simp at h
    · simp at h

theorem hexParse_isSome_short {ds : List Char} (h1 : ds ≠ []) (h2 : ds.all isHexDigit = true)
    (h3 : ds.length ≤ 32) : (hexParse ds).isSome := by
  have hb := hexVal_lt ds 0 h2
  have hle : (16 : ℕ) ^ ds.length ≤ 16 ^ 32 := Nat.pow_le_pow_right (by norm_num) h3
  have h16 : (16 : ℕ) ^ 32 = 2 ^ 128 := by norm_num
  unfold hexParse
  rw [if_neg (by simpa using h1), if_pos h2, if_pos (by
    calc hexVal ds 0 < (0 + 1) * 16 ^ ds.length := hb
      _ = 16 ^ ds.length := by ring
      _ ≤ 16 ^ 32 := hle
      _ = 2 ^ 128 := h16)]
  simp

theorem hexParse_none_long {ds : List Char} (h1 : ds ≠ []) (h2 : ds.all isHexDigit = true)
    (h : hexParse ds = none) : 32 < ds.length := by
  by_contra hle
  push_neg at hle
  have := hexParse_isSome_short h1 h2 hle
  rw [h] at this
  simp at this

theorem digitsOf_length {s : List Char} {m : HexMatch} (hg : GoodMatch s m) :
    (digitsOf s m).length = m.stop - m.dstart := by
  obtain ⟨_, _, _, h4, h5, _, _, _⟩ := hg
  exact sliceChars_length (by omega) h5

theorem digitsOf_ne_nil {s : List Char} {m : HexMatch} (hg : GoodMatch s m) :
    digitsOf s m ≠ [] := by
  have hlen := digitsOf_length hg
  obtain ⟨_, _, _, h4, _, _, _, _⟩ := hg
  intro he
  rw [he] at hlen
  simp at hlen
  omega

theorem renderField_length (w v : Nat) :
    (renderField w v).length = max w (decRender v).length := by
  simp only [renderField, padLeft, List.length_append, List.length_replicate]
  omega

theorem hex2dec_rep_of_some {line : List Char} {m : HexMatch} {v : Nat} (skip : Bool)
    (h : hexParse (digitsOf line m) = some v) :
    hex2dec_rep line skip m = some (renderField (m.stop - m.start) v) := by
  cases skip <;> simp [hex2dec_rep, h]

theorem hex2dec_rep_isSome (line : List Char) (m : HexMatch) :
    (hex2dec_rep line true m).isSome := by
  cases hp : hexParse (digitsOf line m) <;> simp [hex2dec_rep, hp]

theorem hex2dec_line_skip_isSome (line : List Char) : (hex2dec_line line true).isSome := by
  unfold hex2dec_line replace_all
  exact replace_all_go_isSome 0 (fun m _ => hex2dec_rep_isSome line m)

theorem hex2dec_rep_length {s : List Char} {m : HexMatch} {rep : List Char} (skip : Bool)
    (hg : GoodMatch s m) (h : hex2dec_rep s skip m = some rep) :
    m.stop - m.start ≤ rep.length := by
  obtain ⟨_, _, h3, h4, h5, _, _, _⟩ := hg
  cases hp : hexParse (digitsOf s m) with
  | some v =>
    rw [hex2dec_rep_of_some skip hp] at h
    injection h with h
    rw [← h, renderField_length]
    omega
  | none =>
    cases skip with
    | false => simp [hex2dec_rep, hp] at h
    | true =>
      simp only [hex2dec_rep, hp, if_true] at h
      injection h with h
      rw [← h]
      have : (outerOf s m).length = m.stop - m.start :=
        sliceChars_length (by omega) h5
      omega

theorem decRenderAux_zero (fuel : Nat) : decRenderAux fuel 0 = [] := by
  cases fuel <;> simp [decRenderAux]

theorem decDigitChar_range {d : Nat} (h : d < 10) :
    0x30 ≤ (decDigitChar d).toNat ∧ (decDigitChar d).toNat ≤ 0x39 := by
  interval_cases d <;> decide

theorem decDigitChar_ne_zero {d : Nat} (h1 : 0 < d) (h2 : d < 10) : decDigitChar d ≠ '0' := by
  interval_cases d <;> decide

theorem decRenderAux_mem : ∀ (fuel n : Nat) (c : Char), c ∈ decRenderAux fuel n →
    0x30 ≤ c.toNat ∧ c.toNat ≤ 0x39 := by
  intro fuel
  induction fuel with
  | zero => intro n c hc; simp [decRenderAux] at hc
  | succ f ih =>
    intro n c hc
    simp only [decRenderAux] at hc
    split at hc
    · simp at hc
    · rcases List.mem_append.mp hc with h | h
      · exact ih _ _ h
      · simp only [List.mem_singleton] at h
        rw [h]
        exact decDigitChar_range (Nat.mod_lt _ (by norm_num))

theorem decRender_mem {n : Nat} {c : Char} (hc : c ∈ decRender n) :
    0x30 ≤ c.toNat ∧ c.toNat ≤ 0x39 := by
  unfold decRender at hc
  split at hc
  · simp only [List.mem_singleton] at hc
    rw [hc]
    decide
  · exact decRenderAux_mem _ _ _ hc

theorem lt_ten_pow (n : Nat) : n < 10 ^ n := by
  induction n with
  | zero => simp
  | succ k ih =>
    have hp : (10 : ℕ) ^ (k + 1) = 10 ^ k * 10 := pow_succ 10 k
    have hpos : 0 < (10 : ℕ) ^ k := Nat.pos_pow_of_pos k (by norm_num)
    omega

theorem decRenderAux_head : ∀ (fuel n : Nat), 0 < n → n < 10 ^ fuel →
    ∃ c l, decRenderAux fuel n = c :: l ∧ c ≠ '0' := by
  intro fuel
  induction fuel with
  | zero => intro n h1 h2; simp at h2; omega
  | succ f ih =>
    intro n h1 h2
    simp only [decRenderAux]
    rw [if_neg (by omega)]
    by_cases hq : n / 10 = 0
    · have h10 : n < 10 := by omega
      rw [hq, decRenderAux_zero]
      refine ⟨decDigitChar (n % 10), [], by simp, ?_⟩
      rw [Nat.mod_eq_of_lt h10]
      exact decDigitChar_ne_zero h1 h10
    · have hdiv : n / 10 < 10 ^ f := by
        have hp : (10 : ℕ) ^ (f + 1) = 10 ^ f * 10 := pow_succ 10 f
        omega
      obtain ⟨c, l, heq, hc⟩ := ih (n / 10) (Nat.pos_of_ne_zero hq) hdiv
      rw [heq]
      exact ⟨c, l ++ [decDigitChar (n % 10)], by simp, hc⟩

theorem decRender_head {n : Nat} (h : n ≠ 0) : (decRender n).head? ≠ some '0' := by
  unfold decRender
  rw [if_neg h]
  obtain ⟨c, l, heq, hc⟩ := decRenderAux_head n n (Nat.pos_of_ne_zero h) (lt_ten_pow n)
  rw [heq]
  simpa using hc

theorem replace_all_go_emit {s : List Char} (skip : Bool) :
    ∀ {ms : List HexMatch} (last : Nat), (∀ m ∈ ms, (hexParse (digitsOf s m)).isSome) →
    replace_all_go s (hex2dec_rep s skip) last ms = some (emitAll s last ms) := by
  intro ms
  induction ms with
  | nil => intro last _; simp [replace_all_go, emitAll]
  | cons m t ih =>
    intro last hall
    obtain ⟨v, hv⟩ := Option.isSome_iff_exists.mp (hall m (by simp))
    have h1 := hex2dec_rep_of_some skip hv
    have h2 := ih m.stop (fun x hx => hall x (by simp [hx]))
    simp [replace_all_go, emitAll, h1, h2, ← hexParse_some hv]

theorem replace_all_go_emitSkip {s : List Char} :
    ∀ {ms : List HexMatch} {last : Nat},
    replace_all_go s (hex2dec_rep s true) last ms = some (emitAllSkip s last ms) := by
  intro ms
  induction ms with
  | nil => intro last; simp [replace_all_go, emitAllSkip]
  | cons m t ih =>
    intro last
    cases hp : hexParse (digitsOf s m) with
    | some v => simp [replace_all_go, emitAllSkip, hex2dec_rep, hp, ih]
    | none => simp [replace_all_go, emitAllSkip, hex2dec_rep, hp, ih]

theorem matchAt_run {s : List Char} {p n : Nat}
    (h2 : 2 ≤ n) (h3 : p + n ≤ s.length)
    (h4 : ∀ k, k < n → isHexDigit (s.getD (p + k) ' ') = true)
    (h6 : p + n = s.length ∨ isWordChar (s.getD (p + n) ' ') = false) :
    matchAt s p = some ⟨p, p, p + n⟩ := by
  have hrun : hexRunLen (s.drop p) = n := by
    apply hexRunLen_eq
    · intro k hk
      rw [getD_drop]
      exact h4 k hk
    · rw [List.length_drop]; omega
    · rcases h6 with h | h
      · left; rw [List.length_drop]; omega
      · right
        rw [getD_drop]
        cases hhex : isHexDigit (s.getD (p + n) ' ') with
        | false => rfl
        | true => rw [hex_isWord hhex] at h; cases h
  have hend : endBoundary s (p + n) = true := by
    unfold endBoundary
    rw [decide_eq_true_eq]
    exact h6
  have hpfx : ¬(s.getD p ' ' = '0' ∧ s.getD (p + 1) ' ' = 'x') := by
    rintro ⟨-, hx⟩
    have h1 := h4 1 (by omega)
    rw [hx] at h1
    exact absurd h1 (by decide)
  unfold matchAt
  rw [if_neg hpfx, hrun, if_pos ⟨h2, hend⟩]

theorem findMatchesAux_reach {s : List Char} {p n : Nat}
    (h1 : 1 ≤ p) (h2 : 2 ≤ n) (h3 : p + n ≤ s.length)
    (h4 : ∀ k, k < n → isHexDigit (s.getD (p + k) ' ') = true)
    (h5 : isWordChar (s.getD (p - 1) ' ') = false)
    (h6 : p + n = s.length ∨ isWordChar (s.getD (p + n) ' ') = false) :
    ∀ fuel i, i ≤ p → p < i + fuel →
    (⟨p, p, p + n⟩ : HexMatch) ∈ findMatchesAux s fuel i := by
  intro fuel
  induction fuel with
  | zero => intro i hip hfuel; omega
  | succ f ih =>
    intro i hip hfuel
    unfold findMatchesAux
    rw [if_pos (by omega : i < s.length)]
    by_cases hi : i = p
    · subst hi
      have hsb : startBoundary s i = true := by
        unfold startBoundary
        rw [decide_eq_true_eq]
        exact Or.inr h5
      rw [if_pos hsb, matchAt_run h2 h3 h4 h6]
      exact List.mem_cons_self _ _
    · have hlt : i < p := by omega
      by_cases hsb : startBoundary s i = true
      · rw [if_pos hsb]
        cases hm : matchAt s i with
        | none => exact ih (i + 1) (by omega) (by omega)
        | some m =>
          obtain ⟨hstart, hgood⟩ := matchAt_good hsb hm
          obtain ⟨_, _, g3, g4, _, gspan, _, _⟩ := hgood
          have hstop : m.stop ≤ p := by
            by_contra hc
            push_neg at hc
            have hw : isWordChar (s.getD (p - 1) ' ') = true := by
              rcases gspan (p - 1) (by omega) (by omega) with hhex | hx
              · exact hex_isWord hhex
              · rw [hx]; decide
            rw [h5] at hw
            cases hw
          exact List.mem_cons_of_mem _ (ih m.stop hstop (by omega))
      · rw [if_neg hsb]
        exact ih (i + 1) (by omega) (by omega)

/-- C1: for every matched token, `hex2dec_line` replaces the outer span with
the base-10 rendering of the parsed value, right-justified in a field of
width `len(outer)` and padded on the left with ASCII space, with no sign,
no separators and no leading zeros; when the decimal rendering is longer
than `len(outer)` it is emitted in full and the line grows at that
position (the replacement's length is `max len(outer) len(decimal)`). -/
theorem claim_c1 (line : List Char) (skip : Bool) (w v : Nat)
    (h : ∀ m ∈ findMatches line, (hexParse (digitsOf line m)).isSome) :
    hex2dec_line line skip = some (emitAll line 0 (findMatches line)) ∧
    renderField w v = List.replicate (w - (decRender v).length) ' ' ++ decRender v ∧
    (renderField w v).length = max w (decRender v).length ∧
    (∀ c ∈ decRender v, 0x30 ≤ c.toNat ∧ c.toNat ≤ 0x39) ∧
    (v ≠ 0 → (decRender v).head? ≠ some '0') := by
  refine ⟨?_, rfl, renderField_length w v, fun c hc => decRender_mem hc,
    fun hv => decRender_head hv⟩
  unfold hex2dec_line replace_all
  exact replace_all_go_emit skip 0 h

/-- Witness for C1 at the line `"0x12"`, field width 4, value 18. -/
theorem claim_c1_witness :
    (∀ m ∈ findMatches ("0x12".data), (hexParse (digitsOf ("0x12".data) m)).isSome) ∧
    (hex2dec_line ("0x12".data) false =
       some (emitAll ("0x12".data) 0 (findMatches ("0x12".data))) ∧
     renderField 4 18 = List.replicate (4 - (decRender 18).length) ' ' ++ decRender 18 ∧
     (renderField 4 18).length = max 4 (decRender 18).length ∧
     (∀ c ∈ decRender 18, 0x30 ≤ c.toNat ∧ c.toNat ≤ 0x39) ∧
     ((18 : Nat) ≠ 0 → (decRender 18).head? ≠ some '0')) :=
  ⟨by decide, claim_c1 ("0x12".data) false 4 18 (by decide)⟩

/-- C2, counterexample: the claim asserts that every maximal run of at
least two hex digits immediately preceded by a character outside
`[0-9A-Za-z_]` (including any non-ASCII character) is matched.  It fails
twice on the code.  In `" 12g"` the run `12` is maximal and preceded by a
space, but the trailing `\b` fails before the word character `g`, so the
matcher matches nothing.  In `"é7f"` the run `7f` is preceded by `é`,
which is outside `[0-9A-Za-z_]` but is a word character for the regex
crate's Unicode-aware `\b`, so again nothing is matched; both lines pass
through unchanged. -/
theorem claim_c2_counterexample :
    findMatches (" 12g".data) = [] ∧ findMatches ("é7f".data) = [] ∧
    hex2dec_line (" 12g".data) false = some (" 12g".data) ∧
    hex2dec_line ("é7f".data) false = some ("é7f".data) := by
  decide

/-- C2, amended: a token match begins only at start-of-string or after a
character that is not a (Unicode) word character, and ends only at
end-of-string or before a character that is not a word character; and for
every input in which a run of at least two hex digits is immediately
preceded by a non-word character and immediately followed by
end-of-string or a non-word character, the matcher matches exactly that
run. -/
theorem claim_c2 (s : List Char) (p n : Nat)
    (h1 : 1 ≤ p) (h2 : 2 ≤ n) (h3 : p + n ≤ s.length)
    (h4 : ∀ k ∈ List.range n, isHexDigit (s.getD (p + k) ' ') = true)
    (h5 : isWordChar (s.getD (p - 1) ' ') = false)
    (h6 : p + n = s.length ∨ isWordChar (s.getD (p + n) ' ') = false) :
    (⟨p, p, p + n⟩ : HexMatch) ∈ findMatches s ∧
    ∀ m ∈ findMatches s,
      (m.start = 0 ∨ isWordChar (s.getD (m.start - 1) ' ') = false) ∧
      (m.stop = s.length ∨ isWordChar (s.getD m.stop ' ') = false) := by
  constructor
  · exact findMatchesAux_reach h1 h2 h3 (fun k hk => h4 k (List.mem_range.mpr hk)) h5 h6
      (s.length + 1) 0 (by omega) (by omega)
  · intro m hm
    obtain ⟨g1, g2, _, _, _, _, _, _⟩ := findMatches_good hm
    unfold startBoundary at g1
    unfold endBoundary at g2
    rw [decide_eq_true_eq] at g1 g2
    exact ⟨g1, g2⟩

/-- Witness for C2 at the line `" 7f"`: the run at position 1 of length 2
is matched. -/
theorem claim_c2_witness :
    (isWordChar ((" 7f".data).getD 0 ' ') = false) ∧
    ((⟨1, 1, 1 + 2⟩ : HexMatch) ∈ findMatches (" 7f".data) ∧
     ∀ m ∈ findMatches (" 7f".data),
       (m.start = 0 ∨ isWordChar ((" 7f".data).getD (m.start - 1) ' ') = false) ∧
       (m.stop = (" 7f".data).length ∨ isWordChar ((" 7f".data).getD m.stop ' ') = false)) :=
  ⟨by decide, claim_c2 (" 7f".data) 1 2 (by decide) (by decide) (by decide) (by decide)
    (by decide) (by decide)⟩

/-- C3: with `skip_error = true` the transform never fails, and every
matched token whose base-16 parse fails is emitted verbatim with its
outer span unchanged while scanning continues past it (the output is the
full skip-interleaving of the remaining matches). -/
theorem claim_c3 (line : List Char) (m : HexMatch)
    (h : hexParse (digitsOf line m) = none) :
    hex2dec_line line true = some (emitAllSkip line 0 (findMatches line)) ∧
    hex2dec_rep line true m = some (outerOf line m) := by
  constructor
  · unfold hex2dec_line replace_all
    exact replace_all_go_emitSkip
  · simp [hex2dec_rep, h]

/-- Witness for C3 at the line `0x` followed by 33 `f`s, whose single
token overflows 128 bits. -/
theorem claim_c3_witness :
    hexParse (digitsOf ("0x".data ++ List.replicate 33 'f') ⟨0, 2, 35⟩) = none ∧
    (hex2dec_line ("0x".data ++ List.replicate 33 'f') true =
       some (emitAllSkip ("0x".data ++ List.replicate 33 'f') 0
         (findMatches ("0x".data ++ List.replicate 33 'f'))) ∧
     hex2dec_rep ("0x".data ++ List.replicate 33 'f') true ⟨0, 2, 35⟩ =
       some (outerOf ("0x".data ++ List.replicate 33 'f') ⟨0, 2, 35⟩)) :=
  ⟨by decide, claim_c3 _ _ (by decide)⟩

/-- C4: for every matched token whose inner span has length at most 32
hex digits, the base-16 parse into the 128-bit unsigned integer never
fails. -/
theorem claim_c4 (line : List Char) (m : HexMatch)
    (hm : m ∈ findMatches line) (hlen : m.stop - m.dstart ≤ 32) :
    (hexParse (digitsOf line m)).isSome := by
  have hg := findMatches_good hm
  have hne := digitsOf_ne_nil hg
  have hdl := digitsOf_length hg
  have hall := hg.2.2.2.2.2.2.2
  exact hexParse_isSome_short hne hall (by omega)

/-- Witness for C4 at the token `0x12` (inner length 2). -/
theorem claim_c4_witness :
    ((⟨0, 2, 4⟩ : HexMatch) ∈ findMatches ("0x12".data) ∧
     (⟨0, 2, 4⟩ : HexMatch).stop - (⟨0, 2, 4⟩ : HexMatch).dstart ≤ 32) ∧
    (hexParse (digitsOf ("0x12".data) ⟨0, 2, 4⟩)).isSome :=
  ⟨by decide, claim_c4 _ _ (by decide) (by decide)⟩

/-- C5: an input with no token satisfying the recognition rule is
returned unchanged, for either value of the skip flag. -/
theorem claim_c5 (line : List Char) (skip : Bool) (h : findMatches line = []) :
    hex2dec_line line skip = some line := by
  unfold hex2dec_line replace_all
  rw [h]
  simp [replace_all_go]

/-- Witness for C5 at the line `" a "`. -/
theorem claim_c5_witness :
    findMatches (" a ".data) = [] ∧ hex2dec_line (" a ".data) false = some (" a ".data) :=
  ⟨by decide, claim_c5 _ false (by decide)⟩

/-- C6: whenever the transform succeeds, the output is at least as long
as the input. -/
theorem claim_c6 (line : List Char) (skip : Bool) (out : List Char)
    (h : hex2dec_line line skip = some out) : line.length ≤ out.length := by
  unfold hex2dec_line replace_all at h
  have hlen := replace_all_go_length (fun m rep hg hrep => hex2dec_rep_length skip hg hrep)
    (findMatchesAux_chain line (line.length + 1) 0) (by omega) h
  omega

/-- Witness for C6 at the line `"0x12"`. -/
theorem claim_c6_witness :
    hex2dec_line ("0x12".data) false = some ("  18".data) ∧
    ("0x12".data).length ≤ ("  18".data).length :=
  ⟨by decide, claim_c6 _ false _ (by decide)⟩

/-- C7: with `skip_parse_errors = true` the driver masks all parse
failures, so its observable behaviour (the sink invocation sequence, the
returned result, and the number of lines read) does not depend on
`stop_on_error`. -/
theorem claim_c7 (input : List (List Char)) (stop1 stop2 break_nl : Bool) :
    parse_stdin true stop1 break_nl input = parse_stdin true stop2 break_nl input := by
  induction input with
  | nil => rfl
  | cons l rest ih =>
    unfold parse_stdin
    by_cases hb : break_nl = true ∧ l = NEWLINE
    · rw [if_pos hb, if_pos hb]
    · rw [if_neg hb, if_neg hb]
      cases hx : hex2dec_line l true with
      | none =>
        have h' := hex2dec_line_skip_isSome l
        rw [hx] at h'
        simp at h'
      | some s' =>
        simp only [hx]
        rw [ih]

/-- C8: with `skip_parse_errors = false` and `stop_on_error = true`, on the
first line whose transform fails the driver invokes the error sink exactly
once, returns failure, and reads no further lines; the success sink is not
invoked for the failing line. -/
theorem claim_c8 (pre : List (List Char)) (bad : List Char) (rest : List (List Char))
    (h1 : ∀ l ∈ pre, (hex2dec_line l false).isSome)
    (h2 : hex2dec_line bad false = none) :
    parse_stdin false true false (pre ++ bad :: rest) =
      (pre.map (fun l => Event.out ((hex2dec_line l false).getD [])) ++ [Event.errSink],
       false, pre.length + 1) := by
  revert h1
  induction pre with
  | nil =>
    intro _
    simp only [List.nil_append, List.map_nil, List.length_nil]
    unfold parse_stdin
    rw [if_neg (by simp), h2]
    rfl
  | cons l t ih =>
    intro h1
    have hl : (hex2dec_line l false).isSome := h1 l (by simp)
    obtain ⟨s', hs'⟩ := Option.isSome_iff_exists.mp hl
    have iht := ih (fun x hx => h1 x (by simp [hx]))
    simp only [List.cons_append]
    unfold parse_stdin
    rw [if_neg (by simp)]
    simp only [hs']
    rw [iht]
    simp [pushEvent, hs']

/-- Witness for C8 with one good line, one overflowing line, one unread
line. -/
theorem claim_c8_witness :
    ((∀ l ∈ ["0x12\n".data], (hex2dec_line l false).isSome) ∧
     hex2dec_line (List.replicate 33 'f') false = none) ∧
    parse_stdin false true false (["0x12\n".data] ++ List.replicate 33 'f' :: ["zz".data]) =
      (["0x12\n".data].map (fun l => Event.out ((hex2dec_line l false).getD [])) ++
         [Event.errSink],
       false, ["0x12\n".data].length + 1) :=
  ⟨⟨by decide, by decide⟩, claim_c8 _ _ _ (by decide) (by decide)⟩

/-- C9, counterexample: the claim asserts that in an input where
uppercase `0X` immediately precedes a run of at least two hex digits, the
digit run is still matched as a bare hex token and converted.  On
`"0X12"` the code matches nothing at all — `X` is a word character, so no
word boundary precedes the digits — and the line passes through
unchanged. -/
theorem claim_c9_counterexample :
    findMatches ("0X12".data) = [] ∧
    hex2dec_line ("0X12".data) false = some ("0X12".data) := by
  decide

/-- C9, amended: uppercase `0X` is not recognized as a prefix, and the
digit run following it is not matched either: since `X` is a word
character, no match overlaps the `0X` or the digit run at all (every
match ends before the `0` or starts after the run). -/
theorem claim_c9 (s : List Char) (p n : Nat)
    (_h0 : s.getD p ' ' = '0') (hX : s.getD (p + 1) ' ' = 'X')
    (hn : 2 ≤ n)
    (hh : ∀ k ∈ List.range n, isHexDigit (s.getD (p + 2 + k) ' ') = true)
    (hlen : p + 2 + n ≤ s.length) :
    ∀ m ∈ findMatches s, m.stop ≤ p ∨ p + 2 + n ≤ m.start := by
  intro m hm
  obtain ⟨g1, g2, g3, g4, g5, gspan, _, _⟩ := findMatches_good hm
  by_contra hc
  push_neg at hc
  obtain ⟨hc1, hc2⟩ := hc
  have hXw : isWordChar (s.getD (p + 1) ' ') = true := by rw [hX]; decide
  have hXnot : ¬(m.start ≤ p + 1 ∧ p + 1 < m.stop) := by
    rintro ⟨ha, hb⟩
    rcases gspan (p + 1) ha hb with hhex | hx
    · rw [hX] at hhex; exact absurd hhex (by decide)
    · rw [hX] at hx; exact absurd hx (by decide)
  unfold startBoundary at g1
  unfold endBoundary at g2
  rw [decide_eq_true_eq] at g1 g2
  by_cases hstart : p + 2 ≤ m.start
  · rcases g1 with h | h
    · omega
    · by_cases he : m.start - 1 = p + 1
      · rw [he, hXw] at h; cases h
      · have hhex : isHexDigit (s.getD (p + 2 + (m.start - 1 - (p + 2))) ' ') = true :=
          hh _ (List.mem_range.mpr (by omega))
        rw [show p + 2 + (m.start - 1 - (p + 2)) = m.start - 1 from by omega] at hhex
        rw [hex_isWord hhex] at h
        cases h
  · push_neg at hstart
    have hstop : m.stop = p + 1 := by
      by_contra hs
      exact hXnot ⟨by omega, by omega⟩
    rw [hstop] at g2
    rcases g2 with h | h
    · omega
    · rw [hXw] at h; cases h

/-- Witness for C9 on `"ff 0X12"`: the only match is the leading `ff`,
disjoint from the `0X12` token. -/
theorem claim_c9_witness :
    (("ff 0X12".data).getD 3 ' ' = '0' ∧ ("ff 0X12".data).getD 4 ' ' = 'X') ∧
    ∀ m ∈ findMatches ("ff 0X12".data), m.stop ≤ 3 ∨ 3 + 2 + 2 ≤ m.start :=
  ⟨by decide, claim_c9 _ 3 2 (by decide) (by decide) (by decide) (by decide) (by decide)⟩

/-- C10: the binary's transformer (which unwraps the base-16 parse) is
total on every line whose matched digit captures all have length at most
32, and the panic branch is reachable only for matched digit runs longer
than 32 hex characters. -/
theorem claim_c10 (line : List Char)
    (h : ∀ m ∈ findMatches line, m.stop - m.dstart ≤ 32) :
    (hex2dec_line_main line).isSome ∧
    ∀ l : List Char, hex2dec_line_main l = none →
      ∃ m ∈ findMatches l, 32 < m.stop - m.dstart := by
  constructor
  · unfold hex2dec_line_main replace_all
    apply replace_all_go_isSome 0
    intro m hm
    have hg := findMatches_good hm
    have hps : (hexParse (digitsOf line m)).isSome := by
      have hdl := digitsOf_length hg
      exact hexParse_isSome_short (digitsOf_ne_nil hg) hg.2.2.2.2.2.2.2
        (by rw [hdl]; exact h m hm)
    obtain ⟨v, hv⟩ := Option.isSome_iff_exists.mp hps
    simp [hv]
  · intro l hl
    unfold hex2dec_line_main replace_all at hl
    obtain ⟨m, hm, hfm⟩ := replace_all_go_none hl
    have hg := findMatches_good hm
    have hnone : hexParse (digitsOf l m) = none := by
      cases hp : hexParse (digitsOf l m) with
      | none => rfl
      | some v => rw [hp] at hfm; simp at hfm
    have h32 := hexParse_none_long (digitsOf_ne_nil hg) hg.2.2.2.2.2.2.2 hnone
    rw [digitsOf_length hg] at h32
    exact ⟨m, hm, h32⟩

/-- Witness for C10 at the line `"0x12"`. -/
theorem claim_c10_witness :
    (∀ m ∈ findMatches ("0x12".data), m.stop - m.dstart ≤ 32) ∧
    (hex2dec_line_main ("0x12".data)).isSome :=
  ⟨by decide, (claim_c10 ("0x12".data) (by decide)).1⟩

end Hex2Dec
